import Mathlib

/-!
Verification development for the t1dgrs2 scoring pipeline
(src/t1dgrs2/score.py and src/t1dgrs2/metrics.py).

Tabular (pandas) data is embedded shallowly: a DataFrame becomes a list of
rows (structures), floating-point columns become rationals (reals only where
a transcendental function is involved), NaN cells become Option values, and
process exits become Option/Except results.  External collaborator outputs
(PLINK score profiles) and the filesystem are passed in as explicit data.
-/

namespace T1dgrs2

/-! ### Generic list helpers (stable sort, option-column filling) -/

/-- Stable insertion of an element into a list that is sorted under a Boolean
relation.  Models the ascending sort used by pandas sort_values; ties keep the
earlier element first. -/
def insertLe (le : α → α → Bool) (x : α) : List α → List α
  | [] => [x]
  | y :: ys => if le x y then x :: y :: ys else y :: insertLe le x ys

/-- Stable sort under a Boolean relation (insertion sort). -/
def sortByLe (le : α → α → Bool) : List α → List α
  | [] => []
  | x :: xs => insertLe le x (sortByLe le xs)

/-- First non-missing value of an Option column, scanning forward. -/
def firstSome : List (Option α) → Option α
  | [] => none
  | x :: rest => x.orElse (fun _ => firstSome rest)

/-- Last non-missing value of an Option column. -/
def lastSome : List (Option α) → Option α
  | [] => none
  | x :: rest => (lastSome rest).orElse (fun _ => x)

/-! ### score.py: _apply_fix_variant_alleles (lines 33-73) -/

/-- Embedding of _apply_fix_variant_alleles.  A row of the merged
mapping/frequency frame carries A1_map (mapping allele), A1_freq (observed
allele 1; none when the left merge found no frequency record, i.e. pd.isna)
and A2 (observed allele 2; only read when a frequency record exists, so a
caller passes any string when A1_freq is none).  The Python function returns
a string or None; None is the missing value (NaN) in the A1 column. -/
def apply_fix_variant_alleles (A1_map : String) (A1_freq : Option String)
    (A2 : String) : Option String :=
  match A1_freq with
  | none => some A1_map
  | some f =>
    if A1_map = f ∨ A1_map = A2 then some A1_map
    else if A1_map = "-" ∧ f = "0" ∧ A2.length = 1 then some A2
    else if A2.length > A1_map.length ∧ A1_map.length > 1 then some A2
    else if A1_map.length > 1 ∧ A2.length = 1 then
      (if A2 = "-" then some A1_map
       else if f = "0" then some (A2 ++ A1_map)
       else some f)
    else if A1_map ≠ "-" ∧ f = "0" then some A1_map
    else if A1_map = "-" ∧ f ≠ "0" then
      (if f.length ≤ A2.length then f else A2)
    else if A1_map = "-" ∧ f = "0" then some A1_map
    else none

/-- Condition under which none of the reconciliation rules 1-7 applies to a
row, i.e. the conditions guarding every branch of apply_fix_variant_alleles
other than the final else are all false. -/
def noRuleApplies (A1_map : String) (A1_freq : Option String)
    (A2 : String) : Bool :=
  match A1_freq with
  | none => false
  | some f =>
    !(A1_map == f || A1_map == A2) &&
    !(A1_map == "-" && f == "0" && A2.length == 1) &&
    !(decide (A2.length > A1_map.length) && decide (A1_map.length > 1)) &&
    !(decide (A1_map.length > 1) && A2.length == 1) &&
    !(A1_map != "-" && f == "0") &&
    !(A1_map == "-" && f != "0") &&
    !(A1_map == "-" && f == "0")

/-! ### score.py: fix_variant_alleles rank join and sort (lines 156-163) -/

/-- Row of the variant mapping frame after the score allele has been
resolved: DQ allele name, variant id, resolved score allele (A1, possibly
missing). -/
structure VmapRow where
  ALLELE : String
  SNP : String
  A1 : Option String
deriving DecidableEq, Repr

/-- Rank lookup in the DQ rank table (merge left_on ALLELE / right_on DQ,
assuming at most one rank row per allele name as the rank table is keyed by
allele). -/
def lookupRank (rdq : List (String × Int)) (a : String) : Option Int :=
  (rdq.find? (fun p => p.1 == a)).map (fun p => p.2)

/-- Ascending order on the RANK column with missing values (NaN) last,
matching pandas sort_values default na_position. -/
def rankLe (a b : VmapRow × Option Int) : Bool :=
  match a.2, b.2 with
  | some x, some y => x ≤ y
  | some _, none => true
  | none, some _ => false
  | none, none => true

/-- Embedding of the tail of fix_variant_alleles: left merge of the resolved
variant table with the rank table on the allele name, then sort ascending by
RANK.  An allele with no rank entry yields a missing RANK, kept in the
output. -/
def fix_variant_alleles_rank (vmap : List VmapRow) (rdq : List (String × Int)) :
    List (VmapRow × Option Int) :=
  sortByLe rankLe (vmap.map (fun r => (r, lookupRank rdq r.ALLELE)))

/-! ### score.py: create_dosage_table (lines 166-273) -/

/-- Round half to even on rationals — the behaviour of numpy.rint. -/
def rint (q : ℚ) : Int :=
  if q - ⌊q⌋ < 1 / 2 then ⌊q⌋
  else if 1 / 2 < q - ⌊q⌋ then ⌊q⌋ + 1
  else if Even ⌊q⌋ then ⌊q⌋ else ⌊q⌋ + 1

/-- Cast of an integer to numpy ubyte (uint8): reduction modulo 2^8. -/
def toUByte (z : Int) : Nat := (z % 256).toNat

/-- Embedding of the dosage-table assembly of create_dosage_table.  The
collaborator (PLINK --q-score-range) yields one profile per mapped allele;
profiles gives, per allele name, the dosage column over individuals when a
profile file was produced, none otherwise.  Alleles with no profile are set
to dosage 0.0 (line 269), then every cell is doubled, rounded with
numpy.rint and cast to ubyte (line 271).  Columns follow the rank-ordered
mapping allele list.  (Individuals absent from a produced profile are not
modelled: PLINK emits the same individual set in every profile of one
run.) -/
def create_dosage_table (indivs : List (String × String))
    (vmap_alleles : List String)
    (profiles : String → Option ((String × String) → ℚ)) :
    List ((String × String) × List Nat) :=
  indivs.map (fun ind =>
    (ind, vmap_alleles.map (fun a =>
      toUByte (rint ((match profiles a with
        | some p => p ind
        | none => 0) * 2)))))

/-! ### score.py: _apply_get_geno_call_alleles (lines 76-98) -/

/-- One insertion into a Python dict built up as an association list: an
existing key keeps its position but takes the new value, a new key is
appended. -/
def dictStep (acc : List (String × Nat)) (p : String × Nat) :
    List (String × Nat) :=
  if acc.any (fun q => q.1 == p.1) then
    acc.map (fun q => if q.1 == p.1 then (q.1, p.2) else q)
  else acc ++ [p]

/-- Repackaging of an association list through a Python dict: a key keeps
the position of its first insertion and the value of its last insertion.
Models dict(zip(data.index, data.values)). -/
def dictKeepLast (ps : List (String × Nat)) : List (String × Nat) :=
  ps.foldl dictStep []

/-- Embedding of _apply_get_geno_call_alleles.  The row is the dosage row
restricted to the allele columns, in column (rank) order, with genotype
counts as values.  Positive-count alleles are serialised in order with
repetition, right-padded with "X" and truncated to max_calls entries. -/
def apply_get_geno_call_alleles (row : List (String × Nat))
    (max_calls : Nat) : List String :=
  let data := row.filter (fun p => p.2 > 0)
  let data_serialise := (dictKeepLast data).map
    (fun p => List.replicate p.2 p.1)
  let data_serialise_flat := data_serialise.flatten
  (data_serialise_flat ++ List.replicate max_calls "X").take max_calls

/-! ### score.py: get_geno_call_alleles (lines 276-308) -/

/-- Row of the dosage frame: individual identity plus the genotype count
for each allele column. -/
structure DosageRow where
  fid : String
  iid : String
  count : String → Nat

/-- Row of the genotype call frame produced by get_geno_call_alleles. -/
structure GenoOut where
  fid : String
  iid : String
  CALLS : List String
  GENO1 : String
  GENO2 : String
deriving DecidableEq, Repr

/-- Embedding of get_geno_call_alleles.  Line 293 of the source overwrites
the max_calls argument with the literal 2 before any use, which the inner
let mirrors; the CALLS list of every row therefore has exactly two entries,
split into GENO1 and GENO2 (the getD defaults are never reached). -/
def get_geno_call_alleles (df_dsg : List DosageRow) (alleles : List String)
    (max_calls : Nat) : List GenoOut :=
  let max_calls := 2
  df_dsg.map (fun r =>
    let calls := apply_get_geno_call_alleles
      (alleles.map (fun a => (a, r.count a))) max_calls
    { fid := r.fid, iid := r.iid, CALLS := calls,
      GENO1 := calls.getD 0 "", GENO2 := calls.getD 1 "" })

/-! ### score.py: generate_grs (lines 311-472) -/

/-- Row of the genotype call frame as consumed by generate_grs (the GENO
columns of the get_geno_call_alleles output). -/
structure GenoRow where
  fid : String
  iid : String
  GENO1 : String
  GENO2 : String
deriving DecidableEq, Repr

/-- Row of the interaction score file: unordered allele pair and weight. -/
structure IntRow where
  ALLELE1 : String
  ALLELE2 : String
  BETA : ℚ
deriving DecidableEq, Repr

/-- Embedding of the canonicalisation applied to each interaction row
(lines 373-408): the row is melted to its two alleles, each allele is
annotated with its rank, the pair is sorted ascending by rank (stably: a tie
keeps the file order, via groupby rank method first) and pivoted back so
that ALLELE1 carries the smaller rank.  An allele without a rank entry gives
a NaN rank, which makes the astype(int) on line 394 raise: none models that
failure. -/
def canonPair (rdq : List (String × Int)) (a1 a2 : String) :
    Option (String × String) :=
  match lookupRank rdq a1, lookupRank rdq a2 with
  | some r1, some r2 => some (if r2 < r1 then (a2, a1) else (a1, a2))
  | _, _ => none

/-- Interaction weight lookup for an ordered genotype pair: the left merge
of the genotype frame with the canonicalised interaction table on
(GENO1, GENO2) = (ALLELE1, ALLELE2) followed by fillna BETA = 0
(lines 410-416).  The interaction table holds one row per allele pair. -/
def lookupBeta (ints : List IntRow) (g1 g2 : String) : ℚ :=
  match ints.find? (fun r => r.ALLELE1 == g1 && r.ALLELE2 == g2) with
  | some r => r.BETA
  | none => 0

/-- Per-individual score record after the all-variants linear total has
been folded in: interaction BETA and SCORE = BETA + SCORESUM_plink. -/
structure ScoreAcc where
  fid : String
  iid : String
  BETA : ℚ
  SCORE : ℚ
deriving DecidableEq, Repr

/-- Embedding of lines 410-437 of generate_grs: interaction beta per
individual (0 when no interaction row matches the ordered genotype pair),
inner merge with the all-variants PLINK profile on (FID, IID) — an
individual with no profile row is dropped — and SCORE = BETA + linear
total.  The profile is keyed by individual identity. -/
def generate_grs_scores (geno : List GenoRow) (ints : List IntRow)
    (plinkProfile : List ((String × String) × ℚ)) : List ScoreAcc :=
  geno.filterMap (fun g =>
    match plinkProfile.find? (fun p => p.1.1 == g.fid && p.1.2 == g.iid) with
    | some p => some ⟨g.fid, g.iid, lookupBeta ints g.GENO1 g.GENO2,
        lookupBeta ints g.GENO1 g.GENO2 + p.2⟩
    | none => none)

/-- Final result row of generate_grs: SCORE always present, DQSCORE only
when the optional DQ-only score file was supplied. -/
structure OutRow where
  fid : String
  iid : String
  SCORE : ℚ
  DQSCORE : Option ℚ
deriving DecidableEq, Repr

/-- Embedding of generate_grs.  fs models the filesystem seen by read_csv:
some () when a readable score file with the required columns exists at the
path, none when read_csv raises.  The try block of lines 352-371 reads the
DQ-only score file at sc_dq_plink unconditionally — before the emptiness
test on line 438 — and any read failure is caught and turned into
_exit(1), modelled as none.  The rank file, interaction table, all-variants
profile and DQ profile contents are passed in already parsed. -/
def generate_grs (geno : List GenoRow) (ints : List IntRow)
    (fs : String → Option Unit)
    (plinkProfile dqProfile : List ((String × String) × ℚ))
    (sc_dq_plink : String) : Option (List OutRow) :=
  match fs sc_dq_plink with
  | none => none
  | some _ =>
    let base := generate_grs_scores geno ints plinkProfile
    if sc_dq_plink ≠ "" then
      some (base.filterMap (fun b =>
        match dqProfile.find? (fun p => p.1.1 == b.fid && p.1.2 == b.iid) with
        | some p => some ⟨b.fid, b.iid, b.SCORE, some (b.BETA + p.2)⟩
        | none => none))
    else
      some (base.map (fun b => ⟨b.fid, b.iid, b.SCORE, none⟩))

/-! ### metrics.py: retrieve_centiles (lines 15-85) -/

/-- Origin tag of a row in the combined frame (the SOURCE column). -/
inductive Source where
  | rocfile
  | scorefile
deriving DecidableEq, Repr

/-- Centile and PPV metric columns of the reference curve. -/
structure Metrics where
  CTRLCENTILE : ℚ
  CASECENTILE : ℚ
  PPV : ℚ
deriving DecidableEq, Repr

/-- Row of the reference ROC curve file. -/
structure RocRow where
  threshold : ℚ
  mets : Metrics
deriving DecidableEq, Repr

/-- Row of the combined reference/individual frame built by
retrieve_centiles; mets is the (possibly still missing) metric block. -/
structure CRow where
  src : Source
  fid : String
  iid : String
  SCORE : ℚ
  DQSCORE : Option ℚ
  mets : Option Metrics
deriving DecidableEq, Repr

/-- Index of the last non-missing entry strictly before position i. -/
def prevSomeIdx (xs : List (Option α)) (i : Nat) : Option Nat :=
  ((List.range i).filter (fun j => (xs.getD j none).isSome)).getLast?

/-- Index of the first non-missing entry strictly after position i. -/
def nextSomeIdx (xs : List (Option α)) (i : Nat) : Option Nat :=
  ((List.range xs.length).filter
    (fun j => decide (i < j) && (xs.getD j none).isSome)).head?

/-- Embedding of DataFrame.interpolate(method nearest) on an Option column:
a missing entry strictly between two valid entries takes the value of the
positionally nearer one (the earlier on a tie, as scipy kind nearest rounds
down); missing entries before the first or after the last valid entry stay
missing. -/
def interpNearest (xs : List (Option α)) : List (Option α) :=
  xs.mapIdx (fun i x =>
    x.orElse (fun _ =>
      match prevSomeIdx xs i, nextSomeIdx xs i with
      | some j, some k =>
          if i - j ≤ k - i then xs.getD j none else xs.getD k none
      | _, _ => none))

/-- Embedding of DataFrame.bfill on an Option column: a missing entry takes
the next valid value below it. -/
def bfillOpt (xs : List (Option α)) : List (Option α) :=
  xs.mapIdx (fun i x => x.orElse (fun _ => firstSome (xs.drop (i + 1))))

/-- Embedding of DataFrame.ffill on an Option column: a missing entry takes
the last valid value above it. -/
def ffillOpt (xs : List (Option α)) : List (Option α) :=
  xs.mapIdx (fun i x => x.orElse (fun _ => lastSome (xs.take i)))

/-- Line 74 of metrics.py: interpolate(method nearest).bfill().ffill(),
applied to the metric columns (whose missing cells coincide row-wise, so the
three columns are filled as one block). -/
def fillMetrics (xs : List (Option α)) : List (Option α) :=
  ffillOpt (bfillOpt (interpNearest xs))

/-- Ascending order on the SCORE column for the combined frame. -/
def scoreLe (a b : CRow) : Bool := a.SCORE ≤ b.SCORE

/-- Lexicographic ascending order on individual identity (FID, IID). -/
def idLe (a b : CRow) : Bool :=
  a.fid < b.fid || (a.fid == b.fid && a.iid ≤ b.iid)

/-- Reference row recast as a combined-frame row: SOURCE ROCFILE, SCORE =
threshold, empty identity and DQSCORE (NaN), metric block attached (the
merge of line 66 on (SOURCE, SCORE) keys the curve by its threshold). -/
def rocCRow (r : RocRow) : CRow :=
  ⟨Source.rocfile, "", "", r.threshold, none, some r.mets⟩

/-- Individual score row recast as a combined-frame row: SOURCE SCOREFILE,
metric block still missing. -/
def scoreCRow (s : OutRow) : CRow :=
  ⟨Source.scorefile, s.fid, s.iid, s.SCORE, s.DQSCORE, none⟩

/-- Lines 48-63: reference rows concatenated before individual rows. -/
def combinedRows (df_scores : List OutRow) (roc : List RocRow) : List CRow :=
  roc.map rocCRow ++ df_scores.map scoreCRow

/-- Line 61: the combined frame sorted ascending by SCORE. -/
def sortedRows (df_scores : List OutRow) (roc : List RocRow) : List CRow :=
  sortByLe scoreLe (combinedRows df_scores roc)

/-- Line 74 applied to the metric block of the sorted frame. -/
def filledMets (df_scores : List OutRow) (roc : List RocRow) :
    List (Option Metrics) :=
  fillMetrics ((sortedRows df_scores roc).map (fun r => r.mets))

/-- The sorted frame with the filled metric block written back. -/
def updatedRows (df_scores : List OutRow) (roc : List RocRow) : List CRow :=
  ((sortedRows df_scores roc).zip (filledMets df_scores roc)).map
    (fun p => { p.1 with mets := p.2 })

/-- Position k of the score-sorted combined frame holds a non-missing
metric block (i.e. is a reference-curve row). -/
def hasMetsAt (df_scores : List OutRow) (roc : List RocRow) (k : Nat) : Prop :=
  (((sortedRows df_scores roc).map (fun x => x.mets)).getD k none).isSome =
    true

instance (df_scores : List OutRow) (roc : List RocRow) :
    DecidablePred (hasMetsAt df_scores roc) := fun _ =>
  instDecidableEqBool _ _

/-- Embedding of retrieve_centiles.  Reference and individual rows are
combined, sorted ascending by SCORE, the metric block is filled by nearest
interpolation plus bfill and ffill, the reference rows are discarded and
the individual rows are sorted by identity (FID, IID).  Individual DQSCORE
values pass through untouched. -/
def retrieve_centiles (df_scores : List OutRow) (roc : List RocRow) :
    List CRow :=
  sortByLe idLe ((updatedRows df_scores roc).filter
    (fun r => r.src == Source.scorefile))

/-! ### metrics.py: calculate_probs (lines 88-118) -/

/-- Series.item() on the Estimate column filtered by parameter name:
defined only when exactly one row has that name. -/
def item (fit : List (String × ℝ)) (param : String) : Option ℝ :=
  match fit.filter (fun p => p.1 == param) with
  | [e] => some e.2
  | _ => none

/-- Logistic transform of line 117: 1 / (1 + exp(b * (mid - score))). -/
noncomputable def probFormula (b mid s : ℝ) : ℝ :=
  1 / (1 + Real.exp (b * (mid - s)))

/-- Embedding of calculate_probs: the fit parameters b and mid are read
from the fit table (item raises unless exactly one row matches, modelled as
none), and each individual score s gains PROB = probFormula b mid s. -/
noncomputable def calculate_probs (fit : List (String × ℝ))
    (scores : List ((String × String) × ℝ)) :
    Option (List ((String × String) × ℝ × ℝ)) :=
  match item fit "b", item fit "mid" with
  | some b, some mid =>
      some (scores.map (fun s => (s.1, s.2, probFormula b mid s.2)))
  | _, _ => none

/-! ## Helper lemmas -/

theorem mem_insertLe {le : α → α → Bool} {x a : α} {l : List α} :
    a ∈ insertLe le x l ↔ a = x ∨ a ∈ l := by
  induction l with
  | nil => simp [insertLe]
  | cons y ys ih =>
    simp only [insertLe]
    split <;> simp only [List.mem_cons, ih] <;> try tauto

theorem mem_sortByLe {le : α → α → Bool} {a : α} {l : List α} :
    a ∈ sortByLe le l ↔ a ∈ l := by
  induction l with
  | nil => simp [sortByLe]
  | cons x xs ih => simp [sortByLe, mem_insertLe, ih]

theorem length_insertLe (le : α → α → Bool) (x : α) (l : List α) :
    (insertLe le x l).length = l.length + 1 := by
  induction l with
  | nil => simp [insertLe]
  | cons y ys ih =>
    simp only [insertLe]
    split <;> simp [ih]

theorem length_sortByLe (le : α → α → Bool) (l : List α) :
    (sortByLe le l).length = l.length := by
  induction l with
  | nil => rfl
  | cons x xs ih => simp [sortByLe, length_insertLe, ih]

theorem pairwise_insertLe {le : α → α → Bool}
    (total : ∀ a b, le a b = true ∨ le b a = true)
    (trans : ∀ a b c, le a b = true → le b c = true → le a c = true)
    {x : α} {l : List α}
    (h : l.Pairwise (fun a b => le a b = true)) :
    (insertLe le x l).Pairwise (fun a b => le a b = true) := by
  induction l with
  | nil => simp [insertLe]
  | cons y ys ih =>
    rw [List.pairwise_cons] at h
    simp only [insertLe]
    split
    · rename_i hxy
      rw [List.pairwise_cons]
      refine ⟨?_, List.Pairwise.cons h.1 h.2⟩
      intro b hb
      rcases List.mem_cons.mp hb with hb | hb
      · exact hb ▸ hxy
      · exact trans x y b hxy (h.1 b hb)
    · rename_i hxy
      rw [List.pairwise_cons]
      refine ⟨?_, ih h.2⟩
      intro b hb
      rcases mem_insertLe.mp hb with hb | hb
      · rcases total x y with htot | htot
        · exact absurd htot hxy
        · exact hb ▸ htot
      · exact h.1 b hb

theorem pairwise_sortByLe {le : α → α → Bool}
    (total : ∀ a b, le a b = true ∨ le b a = true)
    (trans : ∀ a b c, le a b = true → le b c = true → le a c = true)
    (l : List α) :
    (sortByLe le l).Pairwise (fun a b => le a b = true) := by
  induction l with
  | nil => exact List.Pairwise.nil
  | cons x xs ih => exact pairwise_insertLe total trans ih

theorem dictFold_eq (ps : List (String × Nat)) :
    ∀ acc : List (String × Nat),
      ((acc ++ ps).map Prod.fst).Nodup → List.foldl dictStep acc ps = acc ++ ps := by
  induction ps with
  | nil => intro acc _; simp
  | cons p rest ih =>
    intro acc h
    have hd : ∀ q ∈ acc, ¬q.1 = p.1 := by
      intro q hq hqe
      rw [List.map_append] at h
      have hdisj := (List.nodup_append.mp h).2.2
      exact hdisj (List.mem_map_of_mem Prod.fst hq)
        (by rw [hqe]; simp)
    have hany : acc.any (fun q => q.1 == p.1) = false := by
      simp only [List.any_eq_false, beq_iff_eq]
      exact hd
    rw [List.foldl_cons]
    have hstep : dictStep acc p = acc ++ [p] := by
      rw [dictStep, hany]
      simp
    rw [hstep, ih (acc ++ [p]) (by rwa [List.append_assoc, List.singleton_append])]
    simp

/-- With pairwise-distinct keys a Python dict round-trip is the identity. -/
theorem dictKeepLast_eq_self (ps : List (String × Nat))
    (h : (ps.map Prod.fst).Nodup) : dictKeepLast ps = ps := by
  rw [dictKeepLast, dictFold_eq ps [] (by simpa using h)]
  simp

theorem apply_get_geno_call_alleles_length (row : List (String × Nat))
    (mc : Nat) : (apply_get_geno_call_alleles row mc).length = mc := by
  simp only [apply_get_geno_call_alleles, List.length_take, List.length_append,
    List.length_replicate]
  omega

/-! ## Claims -/

/-- C3: for every interaction-weight row whose two alleles both have rank
entries, canonicalisation emits the allele with the smaller rank first and
the other second, and a pair already in ascending rank order is left
unchanged (fixed point), including the tied case of a repeated allele. -/
theorem C3_canon_smaller_rank_first_and_idempotent
    (rdq : List (String × Int)) (a1 a2 : String) (r1 r2 : Int)
    (h1 : lookupRank rdq a1 = some r1) (h2 : lookupRank rdq a2 = some r2) :
    (r1 < r2 → canonPair rdq a1 a2 = some (a1, a2)) ∧
    (r2 < r1 → canonPair rdq a1 a2 = some (a2, a1)) ∧
    (r1 ≤ r2 → canonPair rdq a1 a2 = some (a1, a2)) := by
  have e : canonPair rdq a1 a2 =
      some (if r2 < r1 then (a2, a1) else (a1, a2)) := by
    unfold canonPair
    rw [h1, h2]
  refine ⟨fun h => ?_, fun h => ?_, fun h => ?_⟩ <;> rw [e]
  · rw [if_neg (by omega)]
  · rw [if_pos h]
  · rw [if_neg (by omega)]

/-- C3 witness: with rank table A↦1, B↦2 the pair (B, A) is reordered to
(A, B) and the already-canonical pair (A, B) is left unchanged. -/
theorem C3_witness :
    lookupRank [("A", (1 : Int)), ("B", 2)] "A" = some 1 ∧
    lookupRank [("A", (1 : Int)), ("B", 2)] "B" = some 2 ∧
    canonPair [("A", (1 : Int)), ("B", 2)] "A" "B" = some ("A", "B") ∧
    canonPair [("A", (1 : Int)), ("B", 2)] "B" "A" = some ("A", "B") := by
  refine ⟨by decide, by decide, ?_, ?_⟩
  · exact (C3_canon_smaller_rank_first_and_idempotent _ "A" "B" 1 2
      (by decide) (by decide)).2.2 (by decide)
  · exact (C3_canon_smaller_rank_first_and_idempotent _ "B" "A" 2 1
      (by decide) (by decide)).2.1 (by decide)

/-- C5 counterexample: the claim says that a variant matching none of the
reconciliation rules 1-7 gets a recorded AmbiguousAlleleError rather than
silently resolving to a missing value.  On the concrete row
A1_map = "A", A1_freq = "G", A2 = "T" (a plain SNP whose mapping allele
matches neither observed allele) no rule applies, yet the source returns
None — the missing value that becomes NaN in the A1 column — and raises or
records no error (the function has no error channel at all). -/
theorem C5_counterexample :
    noRuleApplies "A" (some "G") "T" = true ∧
    apply_fix_variant_alleles "A" (some "G") "T" = none := by
  constructor <;> decide

/-- C5 amended: whenever none of rules 1-7 applies, the resolved allele is
the missing value none (NaN downstream), silently and without any error. -/
theorem C5_no_rule_gives_missing (A1_map : String) (A1_freq : Option String)
    (A2 : String) (h : noRuleApplies A1_map A1_freq A2 = true) :
    apply_fix_variant_alleles A1_map A1_freq A2 = none := by
  cases A1_freq with
  | none => simp [noRuleApplies] at h
  | some f =>
    simp only [noRuleApplies, Bool.and_eq_true, Bool.not_eq_true'] at h
    obtain ⟨⟨⟨⟨⟨⟨c1, c2⟩, c3⟩, c4⟩, c5⟩, c6⟩, c7⟩ := h
    simp only [apply_fix_variant_alleles]
    rw [if_neg (by simpa using c1), if_neg (by simpa using c2),
      if_neg (by simpa using c3), if_neg (by simpa using c4),
      if_neg (by simpa using c5), if_neg (by simpa using c6),
      if_neg (by simpa using c7)]

/-- C5 witness: the amended claim at the concrete row ("C", "G", "T"). -/
theorem C5_witness :
    noRuleApplies "C" (some "G") "T" = true ∧
    apply_fix_variant_alleles "C" (some "G") "T" = none :=
  ⟨by decide, C5_no_rule_gives_missing "C" (some "G") "T" (by decide)⟩

/-- C10: get_geno_call_alleles ignores the max_calls argument — line 293
overwrites it with 2 before use — so the result is always that of
max_calls = 2 and every individual's CALLS list has exactly two entries. -/
theorem C10_max_calls_overwritten (df_dsg : List DosageRow)
    (alleles : List String) (mc : Nat) :
    get_geno_call_alleles df_dsg alleles mc =
      get_geno_call_alleles df_dsg alleles 2 ∧
    ∀ g ∈ get_geno_call_alleles df_dsg alleles mc, g.CALLS.length = 2 := by
  refine ⟨rfl, ?_⟩
  intro g hg
  simp only [get_geno_call_alleles, List.mem_map] at hg
  obtain ⟨r, _, rfl⟩ := hg
  exact apply_get_geno_call_alleles_length _ 2

/-- C10 witness: on a one-row dosage table the call to max_calls = 5 gives
the max_calls = 2 result, whose CALLS list has two entries. -/
theorem C10_witness :
    get_geno_call_alleles [⟨"F1", "I1", fun _ => 1⟩] ["A"] 5 =
      get_geno_call_alleles [⟨"F1", "I1", fun _ => 1⟩] ["A"] 2 ∧
    (⟨"F1", "I1", ["A", "X"], "A", "X"⟩ : GenoOut).CALLS.length = 2 :=
  ⟨(C10_max_calls_overwritten [⟨"F1", "I1", fun _ => 1⟩] ["A"] 5).1,
   (C10_max_calls_overwritten [⟨"F1", "I1", fun _ => 1⟩] ["A"] 5).2
     ⟨"F1", "I1", ["A", "X"], "A", "X"⟩ (by
       rw [show get_geno_call_alleles [⟨"F1", "I1", fun _ => 1⟩] ["A"] 5 =
         [⟨"F1", "I1", ["A", "X"], "A", "X"⟩] from rfl]
       exact List.mem_singleton.mpr rfl)⟩

/-- C4: for a dosage row with distinct allele columns and non-negative
integer counts, the genotype call is the column-ordered serialisation of
the positive-count alleles with repetition, right-padded with the
placeholder "X" and truncated to exactly 2 tokens; every token is either a
column name of the row or "X", and a row of zero total copies yields
["X", "X"]. -/
theorem C4_geno_call_pad_truncate (row : List (String × Nat))
    (hr : (row.map Prod.fst).Nodup) :
    (apply_get_geno_call_alleles row 2).length = 2 ∧
    (apply_get_geno_call_alleles row 2 =
      (((row.filter (fun p => p.2 > 0)).map
        (fun p => List.replicate p.2 p.1)).flatten ++ ["X", "X"]).take 2) ∧
    (∀ t ∈ apply_get_geno_call_alleles row 2,
      t = "X" ∨ t ∈ row.map Prod.fst) ∧
    ((∀ p ∈ row, p.2 = 0) → apply_get_geno_call_alleles row 2 = ["X", "X"]) := by
  have hnodup : ((row.filter (fun p => p.2 > 0)).map Prod.fst).Nodup :=
    (List.filter_sublist row).map Prod.fst |>.nodup hr
  have hdict : dictKeepLast (row.filter (fun p => p.2 > 0)) =
      row.filter (fun p => p.2 > 0) := dictKeepLast_eq_self _ hnodup
  refine ⟨apply_get_geno_call_alleles_length row 2, ?_, ?_, ?_⟩
  · simp only [apply_get_geno_call_alleles, hdict]
    rfl
  · intro t ht
    simp only [apply_get_geno_call_alleles, hdict] at ht
    have ht2 := List.mem_of_mem_take ht
    rcases List.mem_append.mp ht2 with hflat | hpad
    · right
      obtain ⟨l, hl, htl⟩ := List.mem_flatten.mp hflat
      obtain ⟨p, hp, rfl⟩ := List.mem_map.mp hl
      have := List.eq_of_mem_replicate htl
      subst this
      exact List.mem_map_of_mem Prod.fst (List.mem_of_mem_filter hp)
    · left
      exact List.eq_of_mem_replicate hpad
  · intro hzero
    have hfilter : row.filter (fun p => p.2 > 0) = [] := by
      rw [List.filter_eq_nil_iff]
      intro p hp
      simp [hzero p hp]
    simp [apply_get_geno_call_alleles, hfilter, dictKeepLast, dictStep,
      List.take, List.replicate]

/-- C4 witness: the row A↦1, B↦0, C↦3 has distinct columns; the theorem
applies and its serialisation conclusion evaluates to ["A", "C"]. -/
theorem C4_witness :
    ([("A", 1), ("B", 0), ("C", 3)].map (Prod.fst (α := String) (β := Nat))).Nodup ∧
    (apply_get_geno_call_alleles [("A", 1), ("B", 0), ("C", 3)] 2).length = 2 :=
  ⟨by decide, (C4_geno_call_pad_truncate [("A", 1), ("B", 0), ("C", 3)]
    (by decide)).1⟩

/-- C2: for every genotype row, if the all-variants linear total has a row
for that individual then the output contains its record with SCORE equal to
the interaction beta of its ordered genotype pair plus that total; if the
linear total has no row for the individual then no output record carries
that identity; and the beta lookup defaults to 0 whenever no interaction
row matches a pair. -/
theorem C2_final_score_inner_join (geno : List GenoRow) (ints : List IntRow)
    (plinkProfile : List ((String × String) × ℚ)) (g : GenoRow)
    (hg : g ∈ geno) :
    (∀ p, plinkProfile.find?
        (fun q => q.1.1 == g.fid && q.1.2 == g.iid) = some p →
      (⟨g.fid, g.iid, lookupBeta ints g.GENO1 g.GENO2,
        lookupBeta ints g.GENO1 g.GENO2 + p.2⟩ : ScoreAcc) ∈
        generate_grs_scores geno ints plinkProfile) ∧
    (plinkProfile.find?
        (fun q => q.1.1 == g.fid && q.1.2 == g.iid) = none →
      ∀ s ∈ generate_grs_scores geno ints plinkProfile,
        ¬(s.fid = g.fid ∧ s.iid = g.iid)) ∧
    (∀ g1 g2, (∀ r ∈ ints, ¬(r.ALLELE1 = g1 ∧ r.ALLELE2 = g2)) →
      lookupBeta ints g1 g2 = 0) := by
  refine ⟨?_, ?_, ?_⟩
  · intro p hp
    refine List.mem_filterMap.mpr ⟨g, hg, ?_⟩
    rw [hp]
  · intro hnone s hs hid
    obtain ⟨a, ha, hfa⟩ := List.mem_filterMap.mp hs
    rcases hq : plinkProfile.find? (fun q => q.1.1 == a.fid && q.1.2 == a.iid)
      with _ | q
    · rw [hq] at hfa
      exact Option.noConfusion hfa
    · rw [hq] at hfa
      have hs_eq : s.fid = a.fid ∧ s.iid = a.iid := by
        cases hfa
        exact ⟨rfl, rfl⟩
      have hqmem : q ∈ plinkProfile := List.mem_of_find?_eq_some hq
      have hqpred := List.find?_some hq
      have hgnone := List.find?_eq_none.mp hnone q hqmem
      simp only [Bool.and_eq_true, beq_iff_eq] at hqpred hgnone
      exact hgnone ⟨by rw [hqpred.1, ← hs_eq.1, hid.1],
        by rw [hqpred.2, ← hs_eq.2, hid.2]⟩
  · intro g1 g2 hno
    unfold lookupBeta
    rw [List.find?_eq_none.mpr]
    intro r hr
    simp only [Bool.and_eq_true, beq_iff_eq]
    exact fun hc => hno r hr hc

/-- C2 witness: one genotype row matching the single interaction row with
beta 1/2 and a linear total of 10 produces the record with SCORE 1/2 + 10;
an unmatched pair gets beta 0. -/
theorem C2_witness :
    (⟨"F1", "I1", "A", "B"⟩ : GenoRow) ∈ [(⟨"F1", "I1", "A", "B"⟩ : GenoRow)] ∧
    (⟨"F1", "I1", (1 : ℚ) / 2, (1 : ℚ) / 2 + 10⟩ : ScoreAcc) ∈
      generate_grs_scores [⟨"F1", "I1", "A", "B"⟩] [⟨"A", "B", (1 : ℚ) / 2⟩]
        [(("F1", "I1"), 10)] ∧
    lookupBeta [⟨"A", "B", (1 : ℚ) / 2⟩] "A" "A" = 0 := by
  have h := C2_final_score_inner_join [⟨"F1", "I1", "A", "B"⟩]
    [⟨"A", "B", (1 : ℚ) / 2⟩] [(("F1", "I1"), 10)] ⟨"F1", "I1", "A", "B"⟩
    (List.mem_singleton.mpr rfl)
  refine ⟨List.mem_singleton.mpr rfl, ?_, ?_⟩
  · exact h.1 (("F1", "I1"), 10) rfl
  · exact h.2.2 "A" "A" (by decide)

/-- C9: calculate_probs assigns every individual the probability
1 / (1 + exp(b * (mid - score))) with b and mid read from the fit table,
and the formula at b = 1, mid = 0, score = 0 is exactly 1/2. -/
theorem C9_logistic_probability (fit : List (String × ℝ))
    (scores : List ((String × String) × ℝ)) (b mid : ℝ)
    (hb : item fit "b" = some b) (hmid : item fit "mid" = some mid) :
    calculate_probs fit scores =
      some (scores.map (fun s =>
        (s.1, s.2, 1 / (1 + Real.exp (b * (mid - s.2)))))) ∧
    probFormula 1 0 0 = 1 / 2 := by
  constructor
  · unfold calculate_probs
    rw [hb, hmid]
    rfl
  · unfold probFormula
    norm_num [Real.exp_zero]

/-- C9 witness: with fit rows b↦1 and mid↦0 and one individual of score 0,
the theorem applies and gives the closed-form table and the exact 1/2. -/
theorem C9_witness :
    item [("b", (1 : ℝ)), ("mid", 0)] "b" = some 1 ∧
    item [("b", (1 : ℝ)), ("mid", 0)] "mid" = some 0 ∧
    (calculate_probs [("b", (1 : ℝ)), ("mid", 0)] [(("F1", "I1"), 0)] =
      some [(("F1", "I1"), (0 : ℝ), 1 / (1 + Real.exp (1 * (0 - 0))))] ∧
      probFormula 1 0 0 = 1 / 2) :=
  ⟨rfl, rfl, C9_logistic_probability [("b", (1 : ℝ)), ("mid", 0)]
    [(("F1", "I1"), 0)] 1 0 rfl rfl⟩

theorem rint_nonneg {q : ℚ} (h : 0 ≤ q) : 0 ≤ rint q := by
  unfold rint
  have hf : (0 : Int) ≤ ⌊q⌋ := Int.floor_nonneg.mpr h
  split_ifs <;> omega

theorem rint_le_two {q : ℚ} (h : q ≤ 2) : rint q ≤ 2 := by
  have hf : ⌊q⌋ ≤ 2 := by
    have h2 : ⌊q⌋ ≤ ⌊(2 : ℚ)⌋ := Int.floor_le_floor h
    simpa using h2
  unfold rint
  by_cases hf1 : ⌊q⌋ ≤ 1
  · split_ifs <;> omega
  · have hf2 : ⌊q⌋ = 2 := by omega
    have hc : (⌊q⌋ : ℚ) = 2 := by exact_mod_cast hf2
    rw [if_pos (by rw [hc]; linarith)]
    omega

theorem toUByte_small {z : Int} (h0 : 0 ≤ z) (h2 : z ≤ 2) :
    (toUByte z : Int) = z ∧ toUByte z ≤ 2 := by
  unfold toUByte
  rw [Int.emod_eq_of_lt h0 (by omega)]
  omega

/-- C7 code-bug theorem: the claim (and the function's own docstring) says
that an empty sc_dq_plink path is the non-fatal default under which
generate_grs completes normally and omits DQSCORE; but the try block of
lines 352-371 calls read_csv on sc_dq_plink unconditionally, before the
emptiness test of line 438, so with the empty path — which names no file —
the read raises and generate_grs exits abnormally (status 1), producing no
output at all. -/
theorem C7_empty_dq_path_aborts (geno : List GenoRow) (ints : List IntRow)
    (fs : String → Option Unit)
    (plinkProfile dqProfile : List ((String × String) × ℚ))
    (hfs : fs "" = none) :
    generate_grs geno ints fs plinkProfile dqProfile "" = none := by
  unfold generate_grs
  rw [hfs]

/-- C7 witness: a filesystem with no file at the empty path makes
generate_grs with empty sc_dq_plink abort. -/
theorem C7_witness :
    ((fun _ : String => (none : Option Unit)) "") = none ∧
    generate_grs [] [] (fun _ => none) [] [] "" = none :=
  ⟨rfl, C7_empty_dq_path_aborts [] [] (fun _ => none) [] [] rfl⟩

/-- C1 counterexample: the claim says each copy count is
round-half-to-even(dosage × 2) clamped to {0, 1, 2}.  With a dosage value
of 3/2 the source computes rint(3) = 3 and casts it to ubyte, yielding 3 —
outside {0, 1, 2} and different from the clamped value 2: the cast is a
reduction modulo 256, not a clamp. -/
theorem C1_counterexample :
    create_dosage_table [("F1", "I1")] ["A"]
      (fun a => if a == "A" then some (fun _ => (3 : ℚ) / 2) else none) =
      [(("F1", "I1"), [3])] ∧
    ¬((3 : Nat) = 0 ∨ (3 : Nat) = 1 ∨ (3 : Nat) = 2) := by
  have hf : ⌊(3 : ℚ)⌋ = 3 := by
    rw [show (3 : ℚ) = ((3 : Int) : ℚ) by norm_num]
    exact Int.floor_intCast 3
  have hr : rint (3 : ℚ) = 3 := by
    unfold rint
    rw [hf, if_pos (by push_cast; norm_num)]
  have hcell : toUByte (rint ((3 : ℚ) / 2 * 2)) = 3 := by
    rw [show (3 : ℚ) / 2 * 2 = 3 by norm_num, hr]
    decide
  refine ⟨?_, by decide⟩
  show [(("F1", "I1"), [toUByte (rint ((3 : ℚ) / 2 * 2))])] =
    [(("F1", "I1"), [3])]
  rw [hcell]

/-- C1 amended: each individual's dosage row in the output is the
column-ordered list of toUByte(rint(dosage × 2)) — a ubyte cast (mod 2^8),
not a clamp; an allele for which the collaborator returned no dosage data
gets the value of dosage 0, namely copy count 0; and for dosage values in
[0, 1] (the range PLINK average scores take) the cast is lossless and the
count lies in {0, 1, 2}. -/
theorem C1_dosage_cell_ubyte_cast (indivs : List (String × String))
    (vmap_alleles : List String)
    (profiles : String → Option ((String × String) → ℚ))
    (ind : String × String) (hind : ind ∈ indivs) :
    (ind, vmap_alleles.map (fun a =>
      toUByte (rint ((match profiles a with
        | some p => p ind
        | none => 0) * 2)))) ∈
      create_dosage_table indivs vmap_alleles profiles ∧
    (∀ a, profiles a = none →
      toUByte (rint ((match profiles a with
        | some p => p ind
        | none => 0) * 2)) = 0) ∧
    (∀ a p, profiles a = some p → 0 ≤ p ind → p ind ≤ 1 →
      (toUByte (rint (p ind * 2)) : Int) = rint (p ind * 2) ∧
      toUByte (rint (p ind * 2)) ≤ 2) := by
  refine ⟨List.mem_map_of_mem _ hind, ?_, ?_⟩
  · intro a ha
    rw [ha]
    show toUByte (rint ((0 : ℚ) * 2)) = 0
    rw [show (0 : ℚ) * 2 = 0 by norm_num]
    have hr : rint (0 : ℚ) = 0 := by
      unfold rint
      rw [Int.floor_zero, if_pos (by norm_num)]
    rw [hr]
    decide
  · intro a p hp h0 h1
    have hr0 : 0 ≤ rint (p ind * 2) := rint_nonneg (by linarith)
    have hr2 : rint (p ind * 2) ≤ 2 := rint_le_two (by linarith)
    exact toUByte_small hr0 hr2

/-- C1 witness: allele A with dosage 1/2 gives count 1, allele B with no
collaborator data gives count 0. -/
theorem C1_witness :
    ("F1", "I1") ∈ [("F1", "I1")] ∧
    ((("F1", "I1"), [1, 0]) ∈ create_dosage_table [("F1", "I1")] ["A", "B"]
      (fun a => if a == "A" then some (fun _ => (1 : ℚ) / 2) else none)) := by
  refine ⟨List.mem_singleton.mpr rfl, ?_⟩
  have h := (C1_dosage_cell_ubyte_cast [("F1", "I1")] ["A", "B"]
    (fun a => if a == "A" then some (fun _ => (1 : ℚ) / 2) else none)
    ("F1", "I1") (List.mem_singleton.mpr rfl)).1
  have h1 : rint ((1 : ℚ) / 2 * 2) = 1 := by
    rw [show (1 : ℚ) / 2 * 2 = 1 by norm_num]
    unfold rint
    rw [Int.floor_one, if_pos (by push_cast; norm_num)]
  have h0 : rint ((0 : ℚ) * 2) = 0 := by
    rw [show (0 : ℚ) * 2 = 0 by norm_num]
    unfold rint
    rw [Int.floor_zero, if_pos (by norm_num)]
  simp only [List.map] at h
  simp only [show (("A" : String) == "A") = true from rfl,
    show (("B" : String) == "A") = false from rfl, if_true, if_false,
    Bool.false_eq_true] at h
  rw [h1, h0] at h
  simpa using h

theorem rankLe_total (a b : VmapRow × Option Int) :
    rankLe a b = true ∨ rankLe b a = true := by
  unfold rankLe
  rcases a.2 with _ | x <;> rcases b.2 with _ | y <;> simp
  exact Int.le_total x y

theorem rankLe_trans (a b c : VmapRow × Option Int)
    (hab : rankLe a b = true) (hbc : rankLe b c = true) :
    rankLe a c = true := by
  obtain ⟨a1, oa⟩ := a
  obtain ⟨b1, ob⟩ := b
  obtain ⟨c1, oc⟩ := c
  unfold rankLe at hab hbc ⊢
  rcases oa with _ | x <;> rcases ob with _ | y <;>
    rcases oc with _ | z <;> simp_all <;> omega

/-- C6 counterexample: the claim says the rank join fails with a
MissingRankError for a variant whose allele has no rank entry.  With rank
table {A↦1} and variants Z (unranked) and A, the left merge succeeds and
returns both rows, the unranked variant carried with a missing rank and
sorted last — no error of any kind occurs. -/
theorem C6_counterexample :
    fix_variant_alleles_rank
      [⟨"Z", "rs1", some "C"⟩, ⟨"A", "rs2", some "G"⟩] [("A", 1)] =
      [(⟨"A", "rs2", some "G"⟩, some 1), (⟨"Z", "rs1", some "C"⟩, none)] ∧
    ((⟨"Z", "rs1", some "C"⟩ : VmapRow), (none : Option Int)) ∈
      fix_variant_alleles_rank
        [⟨"Z", "rs1", some "C"⟩, ⟨"A", "rs2", some "G"⟩] [("A", 1)] := by
  constructor <;> decide

/-- C6 amended: the rank join is a left merge — a variant whose allele name
has no rank entry is kept with a missing rank (NaN) rather than failing —
and the resulting table is sorted ascending by rank with missing ranks
last; every output row pairs an input variant with exactly the rank its
allele looks up to. -/
theorem C6_rank_join_keeps_unranked_sorted (vmap : List VmapRow)
    (rdq : List (String × Int)) :
    (fix_variant_alleles_rank vmap rdq).Pairwise
      (fun a b => rankLe a b = true) ∧
    (∀ r ∈ vmap, lookupRank rdq r.ALLELE = none →
      (r, (none : Option Int)) ∈ fix_variant_alleles_rank vmap rdq) ∧
    (∀ x ∈ fix_variant_alleles_rank vmap rdq,
      x.1 ∈ vmap ∧ x.2 = lookupRank rdq x.1.ALLELE) := by
  refine ⟨pairwise_sortByLe rankLe_total rankLe_trans _, ?_, ?_⟩
  · intro r hr hnone
    refine mem_sortByLe.mpr (List.mem_map.mpr ⟨r, hr, ?_⟩)
    rw [hnone]
  · intro x hx
    obtain ⟨r, hr, rfl⟩ := List.mem_map.mp (mem_sortByLe.mp hx)
    exact ⟨hr, rfl⟩

/-- C6 witness: the amended claim at the concrete two-variant table. -/
theorem C6_witness :
    lookupRank [("A", (1 : Int))] "Z" = none ∧
    ((⟨"Z", "rs1", some "C"⟩ : VmapRow), (none : Option Int)) ∈
      fix_variant_alleles_rank
        [⟨"Z", "rs1", some "C"⟩, ⟨"A", "rs2", some "G"⟩] [("A", 1)] :=
  ⟨by decide, (C6_rank_join_keeps_unranked_sorted
      [⟨"Z", "rs1", some "C"⟩, ⟨"A", "rs2", some "G"⟩] [("A", 1)]).2.1
    ⟨"Z", "rs1", some "C"⟩ (by decide) (by decide)⟩

theorem firstSome_eq_of_first {zs : List (Option α)} {k : Nat} {v : α}
    (hk : k < zs.length) (hv : zs.getD k none = some v)
    (hnone : ∀ j, j < k → zs.getD j none = none) :
    firstSome zs = some v := by
  induction zs generalizing k with
  | nil => simp at hk
  | cons z rest ih =>
    cases k with
    | zero =>
      simp only [List.getD_cons_zero] at hv
      simp [firstSome, hv, Option.orElse]
    | succ k =>
      have hz : z = none := by
        have h0 := hnone 0 (Nat.succ_pos k)
        simpa using h0
      subst hz
      simp only [firstSome, Option.orElse_none, Option.none_orElse]
      exact ih (by simpa using hk) (by simpa using hv)
        (fun j hj => by simpa using hnone (j + 1) (by omega))

theorem firstSome_eq_none_of_all {zs : List (Option α)}
    (h : ∀ x ∈ zs, x = none) : firstSome zs = none := by
  induction zs with
  | nil => rfl
  | cons z rest ih =>
    have hz := h z (List.mem_cons_self z rest)
    subst hz
    simp only [firstSome, Option.none_orElse]
    exact ih (fun x hx => h x (List.mem_cons_of_mem _ hx))

theorem lastSome_eq_none_of_all {zs : List (Option α)}
    (h : ∀ x ∈ zs, x = none) : lastSome zs = none := by
  induction zs with
  | nil => rfl
  | cons z rest ih =>
    have hz := h z (List.mem_cons_self z rest)
    have hrest := ih (fun x hx => h x (List.mem_cons_of_mem _ hx))
    simp [lastSome, hrest, hz, Option.orElse]

theorem lastSome_eq_of_last {zs : List (Option α)} {k : Nat} {v : α}
    (hk : k < zs.length) (hv : zs.getD k none = some v)
    (hnone : ∀ j, k < j → zs.getD j none = none) :
    lastSome zs = some v := by
  induction zs generalizing k with
  | nil => simp at hk
  | cons z rest ih =>
    cases k with
    | zero =>
      simp only [List.getD_cons_zero] at hv
      have hrest : lastSome rest = none := by
        refine lastSome_eq_none_of_all ?_
        intro x hx
        obtain ⟨j, hj, rfl⟩ := List.mem_iff_getElem.mp hx
        have := hnone (j + 1) (Nat.succ_pos j)
        rwa [List.getD_cons_succ, List.getD_eq_getElem rest none hj] at this
      simp [lastSome, hrest, hv, Option.orElse]
    | succ k =>
      have hrest : lastSome rest = some v :=
        ih (by simpa using hk) (by simpa using hv)
          (fun j hj => by simpa using hnone (j + 1) (by omega))
      simp [lastSome, hrest, Option.orElse]

theorem getD_drop_opt (xs : List (Option α)) (n m : Nat) :
    (xs.drop n).getD m none = xs.getD (n + m) none := by
  rcases Nat.lt_or_ge (n + m) xs.length with h | h
  · have hm : m < (xs.drop n).length := by
      rw [List.length_drop]
      omega
    rw [List.getD_eq_getElem _ _ hm, List.getD_eq_getElem _ _ h,
      List.getElem_drop]
  · rw [List.getD_eq_default _ _ (by rw [List.length_drop]; omega),
      List.getD_eq_default _ _ h]

theorem getD_take_opt (xs : List (Option α)) (n m : Nat) (hmn : m < n) :
    (xs.take n).getD m none = xs.getD m none := by
  rcases Nat.lt_or_ge m xs.length with h | h
  · have hm : m < (xs.take n).length := by
      rw [List.length_take]
      omega
    rw [List.getD_eq_getElem _ _ hm, List.getD_eq_getElem _ _ h,
      List.getElem_take]
  · rw [List.getD_eq_default _ _ (by rw [List.length_take]; omega),
      List.getD_eq_default _ _ h]

theorem prevSomeIdx_eq_none {xs : List (Option α)} {i : Nat}
    (h : ∀ j, j < i → xs.getD j none = none) : prevSomeIdx xs i = none := by
  unfold prevSomeIdx
  have hf : (List.range i).filter
      (fun j => (xs.getD j none).isSome) = [] := by
    rw [List.filter_eq_nil_iff]
    intro j hj
    rw [h j (List.mem_range.mp hj)]
    simp
  rw [hf]
  rfl

theorem nextSomeIdx_eq_none {xs : List (Option α)} {i : Nat}
    (h : ∀ j, i < j → xs.getD j none = none) : nextSomeIdx xs i = none := by
  unfold nextSomeIdx
  have hf : (List.range xs.length).filter
      (fun j => decide (i < j) && (xs.getD j none).isSome) = [] := by
    rw [List.filter_eq_nil_iff]
    intro j _
    rcases Nat.lt_or_ge i j with hij | hij
    · rw [h j hij]
      simp
    · simp [Nat.not_lt.mpr hij]
  rw [hf]
  rfl

theorem length_interpNearest (xs : List (Option α)) :
    (interpNearest xs).length = xs.length := by
  simp [interpNearest]

theorem length_bfillOpt (xs : List (Option α)) :
    (bfillOpt xs).length = xs.length := by
  simp [bfillOpt]

theorem length_ffillOpt (xs : List (Option α)) :
    (ffillOpt xs).length = xs.length := by
  simp [ffillOpt]

theorem length_fillMetrics (xs : List (Option α)) :
    (fillMetrics xs).length = xs.length := by
  simp [fillMetrics, length_ffillOpt, length_bfillOpt, length_interpNearest]

theorem interpNearest_getD (xs : List (Option α)) (i : Nat)
    (hi : i < xs.length) :
    (interpNearest xs).getD i none =
      (xs.getD i none).orElse (fun _ =>
        match prevSomeIdx xs i, nextSomeIdx xs i with
        | some j, some k =>
            if i - j ≤ k - i then xs.getD j none else xs.getD k none
        | _, _ => none) := by
  unfold interpNearest
  rw [List.getD_eq_getElem _ _ (by simpa using hi), List.getElem_mapIdx,
    List.getD_eq_getElem _ _ hi]

theorem bfillOpt_getD (xs : List (Option α)) (i : Nat) (hi : i < xs.length) :
    (bfillOpt xs).getD i none =
      (xs.getD i none).orElse (fun _ => firstSome (xs.drop (i + 1))) := by
  unfold bfillOpt
  rw [List.getD_eq_getElem _ _ (by simpa using hi), List.getElem_mapIdx,
    List.getD_eq_getElem _ _ hi]

theorem ffillOpt_getD (xs : List (Option α)) (i : Nat) (hi : i < xs.length) :
    (ffillOpt xs).getD i none =
      (xs.getD i none).orElse (fun _ => lastSome (xs.take i)) := by
  unfold ffillOpt
  rw [List.getD_eq_getElem _ _ (by simpa using hi), List.getElem_mapIdx,
    List.getD_eq_getElem _ _ hi]

theorem interpNearest_getD_some {xs : List (Option α)} {i : Nat} {v : α}
    (hi : i < xs.length) (hx : xs.getD i none = some v) :
    (interpNearest xs).getD i none = some v := by
  rw [interpNearest_getD xs i hi, hx]
  rfl

theorem interpNearest_getD_of_prev_none {xs : List (Option α)} {i : Nat}
    (hi : i < xs.length) (hx : xs.getD i none = none)
    (hprev : prevSomeIdx xs i = none) :
    (interpNearest xs).getD i none = none := by
  rw [interpNearest_getD xs i hi, hx, hprev]
  rcases hn : nextSomeIdx xs i with _ | k <;> rfl

theorem interpNearest_getD_of_next_none {xs : List (Option α)} {i : Nat}
    (hi : i < xs.length) (hx : xs.getD i none = none)
    (hnext : nextSomeIdx xs i = none) :
    (interpNearest xs).getD i none = none := by
  rw [interpNearest_getD xs i hi, hx, hnext]
  rcases hp : prevSomeIdx xs i with _ | j <;> rfl

/-- A missing entry with only missing entries at or before it takes the
value of the first valid entry after it (nearest interpolation leaves it,
bfill fills it, ffill preserves it): the lowest-scores boundary case. -/
theorem fillMetrics_left {ys : List (Option α)} {i k : Nat} {v : α}
    (hk : k < ys.length) (hik : i < k)
    (hpre : ∀ j, j ≤ i → ys.getD j none = none)
    (hgap : ∀ j, i < j → j < k → ys.getD j none = none)
    (hv : ys.getD k none = some v) :
    (fillMetrics ys).getD i none = some v := by
  have hi : i < ys.length := by omega
  have hbelow : ∀ j, j < k → ys.getD j none = none := by
    intro j hj
    rcases le_or_lt j i with hji | hji
    · exact hpre j hji
    · exact hgap j hji hj
  -- interpolation leaves every position before k missing
  have hinterp_below : ∀ j, j < k → (interpNearest ys).getD j none = none := by
    intro j hj
    exact interpNearest_getD_of_prev_none (by omega) (hbelow j hj)
      (prevSomeIdx_eq_none (fun m hm => hbelow m (by omega)))
  have hinterp_k : (interpNearest ys).getD k none = some v :=
    interpNearest_getD_some hk hv
  have hlen_i : (interpNearest ys).length = ys.length := length_interpNearest ys
  -- bfill pulls the first valid value back to position i
  have hfirst : firstSome ((interpNearest ys).drop (i + 1)) = some v := by
    refine firstSome_eq_of_first (k := k - (i + 1)) ?_ ?_ ?_
    · rw [List.length_drop, hlen_i]
      omega
    · rw [getD_drop_opt, show i + 1 + (k - (i + 1)) = k by omega]
      exact hinterp_k
    · intro j hj
      rw [getD_drop_opt]
      exact hinterp_below (i + 1 + j) (by omega)
  have hbfill_i : (bfillOpt (interpNearest ys)).getD i none = some v := by
    rw [bfillOpt_getD _ i (by omega), hinterp_below i hik]
    show firstSome ((interpNearest ys).drop (i + 1)) = some v
    exact hfirst
  -- ffill preserves the now-valid value
  show (ffillOpt (bfillOpt (interpNearest ys))).getD i none = some v
  rw [ffillOpt_getD _ i (by rw [length_bfillOpt, hlen_i]; omega), hbfill_i]
  rfl

/-- A missing entry with only missing entries at or after it takes the
value of the last valid entry before it (nearest interpolation and bfill
leave it, ffill fills it): the highest-scores boundary case. -/
theorem fillMetrics_right {ys : List (Option α)} {i k : Nat} {v : α}
    (hi : i < ys.length) (hk : k < i)
    (hsuf : ∀ j, i ≤ j → ys.getD j none = none)
    (hgap : ∀ j, k < j → j < i → ys.getD j none = none)
    (hv : ys.getD k none = some v) :
    (fillMetrics ys).getD i none = some v := by
  have habove : ∀ j, k < j → ys.getD j none = none := by
    intro j hj
    rcases Nat.lt_or_ge j i with hji | hji
    · exact hgap j hj hji
    · exact hsuf j hji
  have hlen_i : (interpNearest ys).length = ys.length := length_interpNearest ys
  -- interpolation leaves every position after k missing
  have hinterp_above : ∀ j, k < j → (interpNearest ys).getD j none = none := by
    intro j hj
    rcases Nat.lt_or_ge j ys.length with hjl | hjl
    · exact interpNearest_getD_of_next_none hjl (habove j hj)
        (nextSomeIdx_eq_none (fun m hm => habove m (by omega)))
    · exact List.getD_eq_default _ _ (by omega)
  have hinterp_k : (interpNearest ys).getD k none = some v :=
    interpNearest_getD_some (by omega) hv
  -- bfill leaves every position after k missing too
  have hbfill_above : ∀ j, k < j →
      (bfillOpt (interpNearest ys)).getD j none = none := by
    intro j hj
    rcases Nat.lt_or_ge j ys.length with hjl | hjl
    · rw [bfillOpt_getD _ j (by omega), hinterp_above j hj]
      show firstSome ((interpNearest ys).drop (j + 1)) = none
      refine firstSome_eq_none_of_all ?_
      intro x hx
      obtain ⟨m, hm, rfl⟩ := List.mem_iff_getElem.mp hx
      rw [← List.getD_eq_getElem _ none hm, getD_drop_opt]
      exact hinterp_above (j + 1 + m) (by omega)
    · exact List.getD_eq_default _ _ (by rw [length_bfillOpt]; omega)
  have hbfill_k : (bfillOpt (interpNearest ys)).getD k none = some v := by
    rw [bfillOpt_getD _ k (by omega), hinterp_k]
    rfl
  -- ffill pulls the last valid value forward to position i
  have hlast : lastSome ((bfillOpt (interpNearest ys)).take i) = some v := by
    refine lastSome_eq_of_last (k := k) ?_ ?_ ?_
    · rw [List.length_take, length_bfillOpt, hlen_i]
      omega
    · rw [getD_take_opt _ _ _ hk]
      exact hbfill_k
    · intro j hj
      rcases Nat.lt_or_ge j i with hji | hji
      · rw [getD_take_opt _ _ _ hji]
        exact hbfill_above j hj
      · exact List.getD_eq_default _ _ (by rw [List.length_take]; omega)
  show (ffillOpt (bfillOpt (interpNearest ys))).getD i none = some v
  rw [ffillOpt_getD _ i (by rw [length_bfillOpt, hlen_i]; omega),
    hbfill_above i hk]
  show lastSome ((bfillOpt (interpNearest ys)).take i) = some v
  exact hlast

theorem scoreLe_total (a b : CRow) : scoreLe a b = true ∨ scoreLe b a = true := by
  unfold scoreLe
  simp only [decide_eq_true_eq]
  exact le_total a.SCORE b.SCORE

theorem scoreLe_trans (a b c : CRow) (h1 : scoreLe a b = true)
    (h2 : scoreLe b c = true) : scoreLe a c = true := by
  unfold scoreLe at h1 h2 ⊢
  simp only [decide_eq_true_eq] at h1 h2 ⊢
  exact le_trans h1 h2

theorem idLe_total (a b : CRow) : idLe a b = true ∨ idLe b a = true := by
  unfold idLe
  simp only [Bool.or_eq_true, Bool.and_eq_true, decide_eq_true_eq, beq_iff_eq]
  rcases lt_trichotomy a.fid b.fid with h | h | h
  · exact Or.inl (Or.inl h)
  · rcases le_total a.iid b.iid with h2 | h2
    · exact Or.inl (Or.inr ⟨h, h2⟩)
    · exact Or.inr (Or.inr ⟨h.symm, h2⟩)
  · exact Or.inr (Or.inl h)

theorem idLe_trans (a b c : CRow) (h1 : idLe a b = true)
    (h2 : idLe b c = true) : idLe a c = true := by
  unfold idLe at h1 h2 ⊢
  simp only [Bool.or_eq_true, Bool.and_eq_true, decide_eq_true_eq,
    beq_iff_eq] at h1 h2 ⊢
  rcases h1 with h1 | ⟨h1e, h1i⟩ <;> rcases h2 with h2 | ⟨h2e, h2i⟩
  · exact Or.inl (lt_trans h1 h2)
  · exact Or.inl (h2e ▸ h1)
  · exact Or.inl (h1e ▸ h2)
  · exact Or.inr ⟨h1e.trans h2e, le_trans h1i h2i⟩

theorem sortedRows_pairwise (df_scores : List OutRow) (roc : List RocRow) :
    (sortedRows df_scores roc).Pairwise (fun a b => scoreLe a b = true) :=
  pairwise_sortByLe scoreLe_total scoreLe_trans _

theorem sortedRows_score_mono (df_scores : List OutRow) (roc : List RocRow)
    {i j : Nat} (hij : i ≤ j) (hj : j < (sortedRows df_scores roc).length) :
    ((sortedRows df_scores roc).get ⟨i, lt_of_le_of_lt hij hj⟩).SCORE ≤
      ((sortedRows df_scores roc).get ⟨j, hj⟩).SCORE := by
  rcases Nat.lt_or_ge i j with h | h
  · have hp := List.pairwise_iff_getElem.mp
      (sortedRows_pairwise df_scores roc) i j (lt_of_le_of_lt hij hj) hj h
    simpa [scoreLe, List.get_eq_getElem] using hp
  · have : i = j := by omega
    subst this
    exact le_refl _

theorem sortedRows_mem_shape (df_scores : List OutRow) (roc : List RocRow)
    (x : CRow) (hx : x ∈ sortedRows df_scores roc) :
    (∃ t ∈ roc, x = rocCRow t) ∨ (∃ s ∈ df_scores, x = scoreCRow s) := by
  have h := mem_sortByLe.mp hx
  unfold combinedRows at h
  rcases List.mem_append.mp h with h | h
  · obtain ⟨t, ht, rfl⟩ := List.mem_map.mp h
    exact Or.inl ⟨t, ht, rfl⟩
  · obtain ⟨s, hs, rfl⟩ := List.mem_map.mp h
    exact Or.inr ⟨s, hs, rfl⟩

theorem rocCRow_mem_sortedRows (df_scores : List OutRow) (roc : List RocRow)
    (t : RocRow) (ht : t ∈ roc) :
    ∃ p, ∃ hp : p < (sortedRows df_scores roc).length,
      (sortedRows df_scores roc).get ⟨p, hp⟩ = rocCRow t := by
  have hmem : rocCRow t ∈ sortedRows df_scores roc := by
    refine mem_sortByLe.mpr ?_
    unfold combinedRows
    exact List.mem_append_left _ (List.mem_map_of_mem rocCRow ht)
  obtain ⟨p, hp, he⟩ := List.mem_iff_getElem.mp hmem
  exact ⟨p, hp, he⟩

theorem sortedRows_mets_getD (df_scores : List OutRow) (roc : List RocRow)
    (j : Nat) (hj : j < (sortedRows df_scores roc).length) :
    ((sortedRows df_scores roc).map (fun x => x.mets)).getD j none =
      ((sortedRows df_scores roc).get ⟨j, hj⟩).mets := by
  rw [List.getD_eq_getElem _ _ (by simpa using hj), List.getElem_map]
  rfl

theorem length_filledMets (df_scores : List OutRow) (roc : List RocRow) :
    (filledMets df_scores roc).length = (sortedRows df_scores roc).length := by
  rw [filledMets, length_fillMetrics, List.length_map]

theorem length_updatedRows (df_scores : List OutRow) (roc : List RocRow) :
    (updatedRows df_scores roc).length = (sortedRows df_scores roc).length := by
  rw [updatedRows, List.length_map, List.length_zip, length_filledMets,
    Nat.min_self]

theorem updatedRows_getElem (df_scores : List OutRow) (roc : List RocRow)
    (i : Nat) (hi : i < (updatedRows df_scores roc).length) :
    (updatedRows df_scores roc).get ⟨i, hi⟩ =
      { (sortedRows df_scores roc).get ⟨i, by
          rw [← length_updatedRows df_scores roc]; exact hi⟩ with
        mets := (filledMets df_scores roc).get ⟨i, by
          rw [length_filledMets, ← length_updatedRows df_scores roc];
          exact hi⟩ } := by
  simp only [List.get_eq_getElem]
  unfold updatedRows
  rw [List.getElem_map, List.getElem_zip]

/-- Decomposition of an output row of retrieve_centiles: it is an
individual-origin row, positioned at some index of the score-sorted frame
whose SCORE it carries and whose filled metric entry it received. -/
theorem retrieve_mem_decomp (df_scores : List OutRow) (roc : List RocRow)
    (r : CRow) (hr : r ∈ retrieve_centiles df_scores roc) :
    r.src = Source.scorefile ∧
    ∃ i, ∃ hilen : i < (sortedRows df_scores roc).length,
      r.SCORE = ((sortedRows df_scores roc).get ⟨i, hilen⟩).SCORE ∧
      ((sortedRows df_scores roc).get ⟨i, hilen⟩).src = Source.scorefile ∧
      r.mets = (fillMetrics ((sortedRows df_scores roc).map
        (fun x => x.mets))).getD i none := by
  have hker := mem_sortByLe.mp hr
  have hfil := List.mem_filter.mp hker
  have hsrc : r.src = Source.scorefile := by
    have h2 := hfil.2
    simpa using h2
  obtain ⟨iF, hieq⟩ := List.mem_iff_get.mp hfil.1
  obtain ⟨i, hiu⟩ := iF
  have hilen : i < (sortedRows df_scores roc).length := by
    rw [← length_updatedRows df_scores roc]
    exact hiu
  rw [updatedRows_getElem df_scores roc i hiu] at hieq
  have hfm : i < (filledMets df_scores roc).length := by
    rw [length_filledMets]
    exact hilen
  refine ⟨hsrc, i, hilen, ?_, ?_, ?_⟩
  · rw [← hieq]
  · rw [← hsrc, ← hieq]
  · rw [← hieq]
    show (filledMets df_scores roc).get ⟨i, hfm⟩ =
      (fillMetrics ((sortedRows df_scores roc).map (fun x => x.mets))).getD i none
    rw [List.getD_eq_getElem]
    rfl

theorem roc_head_le (roc : List RocRow) (lo : RocRow)
    (hlo : roc.head? = some lo)
    (hmono : roc.Pairwise (fun a b => a.threshold < b.threshold)) :
    ∀ t ∈ roc, lo.threshold ≤ t.threshold := by
  cases roc with
  | nil => simp at hlo
  | cons a rest =>
    have ha : a = lo := by simpa using hlo
    subst ha
    rw [List.pairwise_cons] at hmono
    intro t ht
    rcases List.mem_cons.mp ht with h | h
    · exact h ▸ le_refl _
    · exact le_of_lt (hmono.1 t h)

theorem roc_le_last (roc : List RocRow) (hi : RocRow)
    (hhi : roc.getLast? = some hi)
    (hmono : roc.Pairwise (fun a b => a.threshold < b.threshold)) :
    ∀ t ∈ roc, t.threshold ≤ hi.threshold := by
  induction roc with
  | nil => simp at hhi
  | cons a rest ih =>
    cases rest with
    | nil =>
      have ha : a = hi := by simpa using hhi
      subst ha
      intro t ht
      rcases List.mem_cons.mp ht with h | h
      · exact h ▸ le_refl _
      · simp at h
    | cons b rest2 =>
      rw [List.getLast?_cons_cons] at hhi
      rw [List.pairwise_cons] at hmono
      have hrest := ih hhi hmono.2
      intro t ht
      rcases List.mem_cons.mp ht with h | h
      · subst h
        exact le_of_lt (lt_of_lt_of_le (hmono.1 b (List.mem_cons_self b rest2))
          (hrest b (List.mem_cons_self b rest2)))
      · exact hrest t h

theorem roc_threshold_inj (roc : List RocRow)
    (hmono : roc.Pairwise (fun a b => a.threshold < b.threshold)) :
    ∀ t1 ∈ roc, ∀ t2 ∈ roc, t1.threshold = t2.threshold → t1 = t2 := by
  induction roc with
  | nil => simp
  | cons a rest ih =>
    rw [List.pairwise_cons] at hmono
    intro t1 ht1 t2 ht2 heq
    rcases List.mem_cons.mp ht1 with h1 | h1 <;>
      rcases List.mem_cons.mp ht2 with h2 | h2
    · rw [h1, h2]
    · subst h1
      exact absurd heq (ne_of_lt (hmono.1 t2 h2))
    · subst h2
      exact absurd heq.symm (ne_of_lt (hmono.1 t1 h1))
    · exact ih hmono.2 t1 h1 t2 h2 heq

/-- C8: with a non-empty, strictly increasing reference curve, every output
individual whose score lies strictly below the lowest reference threshold
receives exactly the lowest reference row's metric block, every individual
whose score lies strictly above the highest threshold receives exactly the
highest row's metric block, the output contains only individual-origin
rows, and it is sorted by individual identity (FID, IID), not by score. -/
theorem C8_boundary_extrapolation_and_output_shape
    (df_scores : List OutRow) (roc : List RocRow) (lo hi : RocRow)
    (hlo : roc.head? = some lo) (hhi : roc.getLast? = some hi)
    (hmono : roc.Pairwise (fun a b => a.threshold < b.threshold)) :
    (∀ r ∈ retrieve_centiles df_scores roc, r.SCORE < lo.threshold →
      r.mets = some lo.mets) ∧
    (∀ r ∈ retrieve_centiles df_scores roc, hi.threshold < r.SCORE →
      r.mets = some hi.mets) ∧
    (∀ r ∈ retrieve_centiles df_scores roc, r.src = Source.scorefile) ∧
    (retrieve_centiles df_scores roc).Pairwise
      (fun a b => idLe a b = true) := by
  have hlomem : lo ∈ roc := by
    cases roc with
    | nil => simp at hlo
    | cons a rest =>
      have ha : a = lo := by simpa using hlo
      exact ha ▸ List.mem_cons_self a rest
  have hhimem : hi ∈ roc := List.mem_of_getLast?_eq_some hhi
  refine ⟨?_, ?_, fun r hr => (retrieve_mem_decomp df_scores roc r hr).1,
    pairwise_sortByLe idLe_total idLe_trans _⟩
  -- part (i): scores below the lowest threshold
  · intro r hr hrlo
    obtain ⟨hsrc, i, hilen, hSCORE, hisrc, hmets⟩ :=
      retrieve_mem_decomp df_scores roc r hr
    have hyslen : ((sortedRows df_scores roc).map
        (fun x => x.mets)).length = (sortedRows df_scores roc).length :=
      List.length_map _ _
    have hpre : ∀ j, j ≤ i →
        ((sortedRows df_scores roc).map (fun x => x.mets)).getD j none =
          none := by
      intro j hj
      have hjlen : j < (sortedRows df_scores roc).length :=
        lt_of_le_of_lt hj hilen
      rw [sortedRows_mets_getD df_scores roc j hjlen]
      rcases sortedRows_mem_shape df_scores roc _
          (List.get_mem _ j hjlen) with ⟨t, ht, hteq⟩ | ⟨s, hs, hseq⟩
      · exfalso
        have hle : ((sortedRows df_scores roc).get ⟨j, hjlen⟩).SCORE ≤
            ((sortedRows df_scores roc).get ⟨i, hilen⟩).SCORE :=
          sortedRows_score_mono df_scores roc hj hilen
        rw [hteq] at hle
        have hge := roc_head_le roc lo hlo hmono t ht
        rw [← hSCORE] at hle
        exact absurd hrlo (not_lt.mpr (le_trans hge hle))
      · rw [hseq]
        rfl
    obtain ⟨p, hp, hpeq⟩ := rocCRow_mem_sortedRows df_scores roc lo hlomem
    have hip : i < p := by
      by_contra hc
      push_neg at hc
      have hle : ((sortedRows df_scores roc).get ⟨p, hp⟩).SCORE ≤
          ((sortedRows df_scores roc).get ⟨i, hilen⟩).SCORE :=
        sortedRows_score_mono df_scores roc hc hilen
      rw [hpeq, ← hSCORE] at hle
      exact absurd hrlo (not_lt.mpr hle)
    have hysp : ((sortedRows df_scores roc).map
        (fun x => x.mets)).getD p none = some lo.mets := by
      rw [sortedRows_mets_getD df_scores roc p hp, hpeq]
      rfl
    have hex : ∃ k, i < k ∧ (((sortedRows df_scores roc).map
        (fun x => x.mets)).getD k none).isSome = true :=
      ⟨p, hip, by rw [hysp]; rfl⟩
    have hk0 := Nat.find_spec hex
    have hk0len : Nat.find hex < ((sortedRows df_scores roc).map
        (fun x => x.mets)).length := by
      by_contra hc
      push_neg at hc
      rw [List.getD_eq_default _ _ hc] at hk0
      simp at hk0
    obtain ⟨m, hm⟩ := Option.isSome_iff_exists.mp hk0.2
    have hgap : ∀ j, i < j → j < Nat.find hex →
        ((sortedRows df_scores roc).map (fun x => x.mets)).getD j none =
          none := by
      intro j hji hjk
      rcases h2 : ((sortedRows df_scores roc).map
          (fun x => x.mets)).getD j none with _ | v
      · exact h2
      · exact absurd ⟨hji, by rw [h2]; rfl⟩ (Nat.find_min hex hjk)
    have hfill : (fillMetrics ((sortedRows df_scores roc).map
        (fun x => x.mets))).getD i none = some m :=
      fillMetrics_left hk0len hk0.1 hpre hgap hm
    have hk0p : Nat.find hex ≤ p :=
      Nat.find_min' hex ⟨hip, by rw [hysp]; rfl⟩
    have hk0lenS : Nat.find hex < (sortedRows df_scores roc).length := by
      rwa [hyslen] at hk0len
    have hmets_k0 : ((sortedRows df_scores roc).get ⟨Nat.find hex, hk0lenS⟩).mets =
        some m := by
      rw [← sortedRows_mets_getD df_scores roc (Nat.find hex) hk0lenS]
      exact hm
    rcases sortedRows_mem_shape df_scores roc _
        (List.get_mem _ _ hk0lenS) with ⟨t, ht, hteq⟩ | ⟨s, hs, hseq⟩
    · have hmt : m = t.mets := by
        rw [hteq] at hmets_k0
        exact (Option.some_inj.mp hmets_k0).symm
      have hle : ((sortedRows df_scores roc).get ⟨Nat.find hex, hk0lenS⟩).SCORE ≤
          ((sortedRows df_scores roc).get ⟨p, hp⟩).SCORE :=
        sortedRows_score_mono df_scores roc hk0p hp
      rw [hteq, hpeq] at hle
      have hge := roc_head_le roc lo hlo hmono t ht
      have htlo : t = lo :=
        roc_threshold_inj roc hmono t ht lo hlomem (le_antisymm hle hge)
      rw [hmets, hfill, hmt, htlo]
    · exfalso
      rw [hseq] at hmets_k0
      exact Option.noConfusion hmets_k0
  -- part (ii): scores above the highest threshold
  · intro r hr hrhi
    obtain ⟨hsrc, i, hilen, hSCORE, hisrc, hmets⟩ :=
      retrieve_mem_decomp df_scores roc r hr
    have hyslen : ((sortedRows df_scores roc).map
        (fun x => x.mets)).length = (sortedRows df_scores roc).length :=
      List.length_map _ _
    have hsuf : ∀ j, i ≤ j →
        ((sortedRows df_scores roc).map (fun x => x.mets)).getD j none =
          none := by
      intro j hj
      rcases Nat.lt_or_ge j (sortedRows df_scores roc).length with hjlen | hjlen
      · rw [sortedRows_mets_getD df_scores roc j hjlen]
        rcases sortedRows_mem_shape df_scores roc _
            (List.get_mem _ j hjlen) with ⟨t, ht, hteq⟩ | ⟨s, hs, hseq⟩
        · exfalso
          have hle : ((sortedRows df_scores roc).get ⟨i, hilen⟩).SCORE ≤
              ((sortedRows df_scores roc).get ⟨j, hjlen⟩).SCORE :=
            sortedRows_score_mono df_scores roc hj hjlen
          rw [hteq, ← hSCORE] at hle
          have hge := roc_le_last roc hi hhi hmono t ht
          exact absurd hrhi (not_lt.mpr (le_trans hle hge))
        · rw [hseq]
          rfl
      · exact List.getD_eq_default _ _ (by rwa [hyslen])
    obtain ⟨p, hp, hpeq⟩ := rocCRow_mem_sortedRows df_scores roc hi hhimem
    have hpi : p < i := by
      by_contra hc
      push_neg at hc
      have hle : ((sortedRows df_scores roc).get ⟨i, hilen⟩).SCORE ≤
          ((sortedRows df_scores roc).get ⟨p, hp⟩).SCORE :=
        sortedRows_score_mono df_scores roc hc hp
      rw [hpeq, ← hSCORE] at hle
      exact absurd hrhi (not_lt.mpr hle)
    have hysp : ((sortedRows df_scores roc).map
        (fun x => x.mets)).getD p none = some hi.mets := by
      rw [sortedRows_mets_getD df_scores roc p hp, hpeq]
      rfl
    have hQp : hasMetsAt df_scores roc p := by
      unfold hasMetsAt
      rw [hysp]
      rfl
    have hpi1 : p ≤ i - 1 := by omega
    have hkg : hasMetsAt df_scores roc
        (Nat.findGreatest (hasMetsAt df_scores roc) (i - 1)) :=
      Nat.findGreatest_spec hpi1 hQp
    have hkg_le : Nat.findGreatest (hasMetsAt df_scores roc) (i - 1) ≤
        i - 1 := Nat.findGreatest_le (i - 1)
    have hkg_lt : Nat.findGreatest (hasMetsAt df_scores roc) (i - 1) < i := by
      omega
    have hkg2 : (((sortedRows df_scores roc).map (fun x => x.mets)).getD
        (Nat.findGreatest (hasMetsAt df_scores roc) (i - 1)) none).isSome =
        true := hkg
    obtain ⟨m, hm⟩ := Option.isSome_iff_exists.mp hkg2
    have hgap : ∀ j,
        Nat.findGreatest (hasMetsAt df_scores roc) (i - 1) < j → j < i →
        ((sortedRows df_scores roc).map (fun x => x.mets)).getD j none =
          none := by
      intro j hjg hji
      rcases h2 : ((sortedRows df_scores roc).map
          (fun x => x.mets)).getD j none with _ | v
      · exact h2
      · refine absurd ?_ (Nat.findGreatest_is_greatest hjg (by omega))
        unfold hasMetsAt
        rw [h2]
        rfl
    have hfill : (fillMetrics ((sortedRows df_scores roc).map
        (fun x => x.mets))).getD i none = some m :=
      fillMetrics_right (by rwa [hyslen]) hkg_lt hsuf hgap hm
    have hpkg : p ≤ Nat.findGreatest (hasMetsAt df_scores roc) (i - 1) :=
      Nat.le_findGreatest hpi1 hQp
    have hkg_lenS : Nat.findGreatest (hasMetsAt df_scores roc) (i - 1) <
        (sortedRows df_scores roc).length := by
      rw [← hyslen]
      by_contra hc
      push_neg at hc
      rw [List.getD_eq_default _ _ hc] at hkg2
      simp at hkg2
    have hmets_kg : ((sortedRows df_scores roc).get
        ⟨Nat.findGreatest (hasMetsAt df_scores roc) (i - 1),
          hkg_lenS⟩).mets = some m := by
      rw [← sortedRows_mets_getD df_scores roc _ hkg_lenS]
      exact hm
    rcases sortedRows_mem_shape df_scores roc _
        (List.get_mem _ _ hkg_lenS) with ⟨t, ht, hteq⟩ | ⟨s, hs, hseq⟩
    · have hmt : m = t.mets := by
        rw [hteq] at hmets_kg
        exact (Option.some_inj.mp hmets_kg).symm
      have hle : ((sortedRows df_scores roc).get ⟨p, hp⟩).SCORE ≤
          ((sortedRows df_scores roc).get ⟨Nat.findGreatest
            (hasMetsAt df_scores roc) (i - 1), hkg_lenS⟩).SCORE :=
        sortedRows_score_mono df_scores roc hpkg hkg_lenS
      rw [hteq, hpeq] at hle
      have hge := roc_le_last roc hi hhi hmono t ht
      have hthi : t = hi :=
        roc_threshold_inj roc hmono t ht hi hhimem (le_antisymm hge hle)
      rw [hmets, hfill, hmt, hthi]
    · exfalso
      rw [hseq] at hmets_kg
      exact Option.noConfusion hmets_kg

/-- C8 witness: with reference curve (10 ↦ (1,2,3)), (20 ↦ (4,5,6)) and
individuals F1 at score 5 (below) and F0 at score 25 (above), the theorem
applies; evaluating the pipeline confirms F0 gets the highest row's
metrics and F1 the lowest row's. -/
theorem C8_witness :
    ([⟨10, ⟨1, 2, 3⟩⟩, ⟨20, ⟨4, 5, 6⟩⟩] : List RocRow).head? =
      some ⟨10, ⟨1, 2, 3⟩⟩ ∧
    ([⟨10, ⟨1, 2, 3⟩⟩, ⟨20, ⟨4, 5, 6⟩⟩] : List RocRow).getLast? =
      some ⟨20, ⟨4, 5, 6⟩⟩ ∧
    ([⟨10, ⟨1, 2, 3⟩⟩, ⟨20, ⟨4, 5, 6⟩⟩] : List RocRow).Pairwise
      (fun a b => a.threshold < b.threshold) ∧
    (∀ r ∈ retrieve_centiles [⟨"F1", "I1", 5, none⟩, ⟨"F0", "I0", 25, none⟩]
        [⟨10, ⟨1, 2, 3⟩⟩, ⟨20, ⟨4, 5, 6⟩⟩],
      r.SCORE < (10 : ℚ) → r.mets = some ⟨1, 2, 3⟩) ∧
    (∀ r ∈ retrieve_centiles [⟨"F1", "I1", 5, none⟩, ⟨"F0", "I0", 25, none⟩]
        [⟨10, ⟨1, 2, 3⟩⟩, ⟨20, ⟨4, 5, 6⟩⟩],
      (20 : ℚ) < r.SCORE → r.mets = some ⟨4, 5, 6⟩) := by
  have h := C8_boundary_extrapolation_and_output_shape
    [⟨"F1", "I1", 5, none⟩, ⟨"F0", "I0", 25, none⟩]
    [⟨10, ⟨1, 2, 3⟩⟩, ⟨20, ⟨4, 5, 6⟩⟩] ⟨10, ⟨1, 2, 3⟩⟩ ⟨20, ⟨4, 5, 6⟩⟩
    rfl rfl (by decide)
  exact ⟨rfl, rfl, by decide, h.1, h.2.1⟩

end T1dgrs2
